import Mathlib

/-!
Verification development for the hierarchical config merging repository.

The core module (`src/hierarchical_config_merging/config_merger.py`) is
shallow-embedded below:

* Python/YAML structured values become the inductive `Value` (mappings are
  association lists of string keys, preserving insertion order, as Python
  dicts do; a well-formedness predicate `wfVal` records that Python dicts
  never hold duplicate keys);
* the filesystem seen by `os.walk` becomes an explicit list of directories
  with their immediate files (`FS`);
* absolute, resolved paths become lists of components (`List String`);
  `str(path)` becomes `pathChars`/`pathString`;
* fallible functions return `Except`, with one error constructor per
  distinct `raise` site / runtime failure.
-/

namespace HierCfg

/-- Structured values produced by `yaml.safe_load`: mappings, sequences and
scalars.  A Python dict is modelled as an association list in insertion
order. -/
inductive Value where
  | vnull  : Value
  | vbool  : Bool → Value
  | vint   : Int → Value
  | vstr   : String → Value
  | vlist  : List Value → Value
  | vmap   : List (String × Value) → Value

/-- The type of a parsed config dict (`Dict[str, Any]`). -/
abbrev CfgMap := List (String × Value)

/-- `m[k]` lookup in a Python dict modelled as an association list. -/
def lookupKey {α β : Type} [DecidableEq α] : List (α × β) → α → Option β
  | [], _ => none
  | (k0, v0) :: rest, k => if k0 = k then some v0 else lookupKey rest k

/-- `k in m` membership test on a Python dict. -/
def containsKey {α β : Type} [DecidableEq α] (m : List (α × β)) (k : α) : Bool :=
  (lookupKey m k).isSome

/-- `m[k] = v` assignment on a Python dict: replace in place if the key is
present (keeping its position), otherwise append at the end. -/
def setKey {α β : Type} [DecidableEq α] : List (α × β) → α → β → List (α × β)
  | [], k, v => [(k, v)]
  | (k0, v0) :: rest, k, v =>
      if k0 = k then (k, v) :: rest else (k0, v0) :: setKey rest k v

/-- `isinstance(v, dict)`. -/
def isMap : Value → Bool
  | .vmap _ => true
  | _ => false

/-- The dict payload of a mapping value (only ever used under an `isMap`
guard, mirroring a Python dict access guarded by `isinstance`). -/
def dval : Value → List (String × Value)
  | .vmap m => m
  | _ => []

/-- `_deep_merge(base, override)` from `config_merger.py` lines 149-168:
`result = base.copy()`, then for each `key, value` in `override.items()`:
if `key in result and isinstance(result[key], dict) and isinstance(value,
dict)` then `result[key] = _deep_merge(result[key], value)` else
`result[key] = value`.  The guarded access `result[key]` is modelled as
`(lookupKey base k).getD .vnull`, which the `containsKey` conjunct keeps
honest. -/
def deepMerge (base : List (String × Value)) :
    List (String × Value) → List (String × Value)
  | [] => base
  | (k, v) :: rest =>
      if h : (containsKey base k && isMap ((lookupKey base k).getD .vnull) && isMap v) = true then
        deepMerge
          (setKey base k (.vmap (deepMerge (dval ((lookupKey base k).getD .vnull)) (dval v))))
          rest
      else
        deepMerge (setKey base k v) rest
termination_by l => sizeOf l
decreasing_by
  · have hv : isMap v = true := by
      simp only [Bool.and_eq_true] at h
      exact h.2
    have hlt : sizeOf (dval v) < sizeOf v := by
      cases v <;> simp_all [isMap, dval]
    simp_arith
    omega
  · simp_arith
  · simp_arith

/-- Descend through nested mappings along a list of keys. -/
def getPath : Value → List String → Option Value
  | v, [] => some v
  | v, k :: ks =>
      match v with
      | .vmap m =>
          match lookupKey m k with
          | some w => getPath w ks
          | none => none
      | _ => none

/-- Well-formedness of a value as a Python/YAML tree: every mapping
reachable through mapping values has pairwise-distinct keys (true of every
Python dict by construction). -/
def wfVal : Value → Bool
  | .vmap [] => true
  | .vmap ((k, v) :: rest) =>
      !(containsKey rest k) && wfVal v && wfVal (.vmap rest)
  | _ => true
termination_by v => sizeOf v
decreasing_by
  · simp_arith
  · simp_arith

/-- Well-formedness of a dict. -/
def wfMap (m : List (String × Value)) : Bool := wfVal (.vmap m)

/-- The value stored at key `k` after one merge step, given `base`'s value
there (`w`, if any) and the override's value `v`. -/
def mergedVal (w : Option Value) (v : Value) : Value :=
  match w, v with
  | some (.vmap ma), .vmap mb => .vmap (deepMerge ma mb)
  | _, _ => v

/-- What a single merged dict holds at key `k`, as a function of what the
two inputs hold there. -/
def mergeLookup (a b : Option Value) : Option Value :=
  match b with
  | none => a
  | some v => some (mergedVal a v)

/-- Characters of `str(path)` for a nonempty resolved absolute path:
each component is preceded by a slash. -/
def pathCharsAux : List String → List Char
  | [] => []
  | s :: rest => '/' :: s.toList ++ pathCharsAux rest

/-- `str(path)` of a resolved absolute path given by its components
(`str(Path("/")) = "/"` for the empty component list). -/
def pathChars : List String → List Char
  | [] => ['/']
  | s :: rest => pathCharsAux (s :: rest)

/-- `str(path)` as a `String`, used when formatting messages. -/
def pathString (p : List String) : String := String.mk (pathChars p)

/-- Outcome of opening and `yaml.safe_load`-ing one file. -/
inductive Content where
  | unparsable : Content
  | doc : Value → Content

/-- The filesystem as visited by `os.walk`: every directory (given by its
resolved absolute components) together with its immediate files (name and
parse outcome). -/
abbrev FS := List (List String × List (String × Content))

/-- Python-level failures of the core module, one constructor per raise
site / runtime error: the explicit `ValueError` at line 41, the
`ValueError` raised by `Path.relative_to` at line 46, the exception
re-raised by `parse_yaml_configs` (recording the failing file), and the
`AttributeError` a non-dict config would raise in
`merge_configs_by_depth`. -/
inductive PyErr where
  | invalidTarget : PyErr
  | relativeToValueError : PyErr
  | parseError : List String → PyErr
  | attributeError : List String → PyErr
deriving DecidableEq

/-- `Path.relative_to`: succeeds iff `base` is a component-wise prefix,
returning the remaining components, otherwise raises `ValueError`. -/
def relative_to (p base : List String) : Option (List String) :=
  if base.isPrefixOf p then some (p.drop base.length) else none

/-- `os.walk(base_dir)`: the directories of the filesystem lying in the
subtree of `base_dir`. -/
def walkDirs (fs : FS) (base_dir : List String) :
    List (List String × List (String × Content)) :=
  fs.filter (fun e => base_dir.isPrefixOf e.1)

/-- Python's `s.endswith(suffix)`: a case-sensitive character-level suffix
test. -/
def strEndsWith (s suffix : String) : Bool := suffix.toList.isSuffixOf s.toList

/-- `file.endswith('.yaml') or file.endswith('.yml')`. -/
def isYamlName (f : String) : Bool := strEndsWith f ".yaml" || strEndsWith f ".yml"

/-- The inclusion test of `find_yaml_files_in_hierarchy` (lines 59-61):
the visited directory's relative component list is empty (the base
itself), or is no longer than the target's and equals its prefix of the
same length. -/
def dirIncluded (root_parts target_parts : List String) : Prop :=
  root_parts = [] ∨ (root_parts.length ≤ target_parts.length ∧
    root_parts = target_parts.take root_parts.length)

instance (r t : List String) : Decidable (dirIncluded r t) :=
  inferInstanceAs (Decidable (_ ∨ _))

/-- `find_yaml_files_in_hierarchy(base_dir, target_path)` from
`config_merger.py` lines 16-67.  Paths are taken already resolved.  The
guard is Python's `str(target_path).startswith(str(base_dir))` — a string
prefix test on `str()` of the two paths; when it passes,
`target_path.relative_to(base_dir)` is computed (and can itself raise),
and the walk keeps every directory whose relative component list is empty
or a component-wise prefix of the target's. -/
def find_yaml_files_in_hierarchy (fs : FS) (base_dir target_path : List String) :
    Except PyErr (List (List String)) :=
  if (pathChars base_dir).isPrefixOf (pathChars target_path) then
    match relative_to target_path base_dir with
    | none => .error .relativeToValueError
    | some target_parts =>
        .ok ((walkDirs fs base_dir).flatMap (fun e =>
          if dirIncluded (e.1.drop base_dir.length) target_parts then
            (e.2.filter (fun fc => isYamlName fc.1)).map (fun fc => e.1 ++ [fc.1])
          else []))
  else .error .invalidTarget

/-- Opening a file at path `dir ++ [name]`: look the directory up in the
filesystem, then the file name in it. -/
def readFile (fs : FS) (p : List String) : Option Content :=
  match fs.find? (fun e => e.1 == p.dropLast) with
  | some e =>
      match e.2.find? (fun fc => fc.1 == p.getLastD "") with
      | some fc => some fc.2
      | none => none
  | none => none

/-- Python truthiness of a YAML value, as used by `config or {}`:
`None`, `False`, `0`, `""`, `[]` and `{}` are falsy. -/
def truthy : Value → Bool
  | .vnull => false
  | .vbool b => b
  | .vint n => !(n == 0)
  | .vstr s => !(s == "")
  | .vlist xs => !xs.isEmpty
  | .vmap m => !m.isEmpty

/-- `parse_yaml_configs(yaml_files)` from `config_merger.py` lines 70-93:
each file is loaded in order; `config = yaml.safe_load(f) or {}` replaces
any falsy document by the empty dict; any failure (unreadable or
unparsable file) is re-raised as an exception naming that file, aborting
the whole batch. -/
def parse_yaml_configs (fs : FS) :
    List (List String) → Except PyErr (List (List String × Value))
  | [] => .ok []
  | f :: rest =>
      match readFile fs f with
      | some (.doc v) =>
          match parse_yaml_configs fs rest with
          | .ok m => .ok ((f, if truthy v then v else .vmap []) :: m)
          | .error e => .error e
      | _ => .error (.parseError f)

/-- A file that `parse_yaml_configs` fails on: missing or unparsable. -/
def isBadFile (fs : FS) (f : List String) : Bool :=
  match readFile fs f with
  | some (.doc _) => false
  | _ => true

/-- `len(Path(file_path).parts)`: the number of components of the path;
`Path.parts` of an absolute path starts with the root `/` marker, hence
the `+ 1`. -/
def depthOf (p : List String) : Nat := p.length + 1

/-- A collision diagnostic, carrying exactly the fields interpolated into
the message at line 137: the depth, the colliding key, the recorded
(first-seen) source and the file at hand. -/
structure Diag where
  depth : Nat
  key : String
  firstSource : List String
  secondSource : List String
deriving DecidableEq

/-- A one-character string holding an apostrophe (the quote around the key
in the collision message). -/
def quoteStr : String := String.mk [Char.ofNat 39]

/-- The f-string of line 137. -/
def renderDiag (d : Diag) : String :=
  "Key collision at depth " ++ toString d.depth ++ ": " ++ quoteStr ++ d.key ++ quoteStr ++
    " found in both " ++ pathString d.firstSource ++ " and " ++ pathString d.secondSource

/-- The inner loop of lines 132-140 for one file's keys: a key already in
`key_sources` emits a diagnostic blaming the recorded source (which is
never updated); a fresh key is recorded with the current file. -/
def scanKeys (d : Nat) (fp : List String) :
    List (String × List String) → List String →
      (List (String × List String)) × List Diag
  | sources, [] => (sources, [])
  | sources, key :: rest =>
      match lookupKey sources key with
      | some first =>
          let r := scanKeys d fp sources rest
          (r.1, ⟨d, key, first, fp⟩ :: r.2)
      | none =>
          scanKeys d fp (setKey sources key fp) rest

/-- Lines 132-140 over the files of one depth group, threading
`key_sources`. -/
def scanFiles (d : Nat) :
    List (String × List String) → List (List String × CfgMap) → List Diag
  | _, [] => []
  | sources, (fp, cfg) :: rest =>
      let r := scanKeys d fp sources (cfg.map Prod.fst)
      r.2 ++ scanFiles d r.1 rest

/-- Collision detection for one depth group (`key_sources` starts empty
for each group). -/
def scanGroup (d : Nat) (group : List (List String × CfgMap)) : List Diag :=
  scanFiles d [] group

/-- The configs of one depth bucket, in traversal order (the defaultdict
of lines 113-119 groups by depth preserving insertion order). -/
def groupAt (d : Nat) (configs : List (List String × CfgMap)) :
    List (List String × CfgMap) :=
  configs.filter (fun c => depthOf c.1 = d)

/-- `sorted(depth_groups.keys())`: the distinct depths in ascending
order. -/
def sortedDepths (configs : List (List String × CfgMap)) : List Nat :=
  List.insertionSort (· ≤ ·) ((configs.map (fun c => depthOf c.1)).dedup)

/-- `merge_configs_by_depth(configs)` from `config_merger.py` lines
96-146, with structured diagnostics: empty input short-circuits; depth
groups are processed in ascending order; each group is first scanned for
same-depth key collisions, then folded into the running merge with
`_deep_merge`. -/
def mergeConfigsByDepth (configs : List (List String × CfgMap)) : CfgMap × List Diag :=
  if configs.isEmpty then ([], [])
  else
    (sortedDepths configs).foldl
      (fun acc d =>
        ((groupAt d configs).foldl (fun mc e => deepMerge mc e.2) acc.1,
          acc.2 ++ scanGroup d (groupAt d configs)))
      ([], [])

/-- `merge_configs_by_depth` as the Python function returns it: the merged
dict and the rendered error strings. -/
def merge_configs_by_depth (configs : List (List String × CfgMap)) :
    CfgMap × List String :=
  ((mergeConfigsByDepth configs).1, (mergeConfigsByDepth configs).2.map renderDiag)

/-- The f-string of line 186. -/
def noFilesMsg (base target : List String) : String :=
  "No YAML files found in hierarchy from " ++ pathString base ++ " to " ++ pathString target

/-- `merge_configs_by_depth` calls `.keys()` on every parsed config, so a
config that is not a dict raises `AttributeError`; this checked
conversion models that failure (surfacing it at conversion time rather
than mid-fold — either way the call raises and produces no result). -/
def asDictConfigs : List (List String × Value) → Except PyErr (List (List String × CfgMap))
  | [] => .ok []
  | (f, .vmap m) :: rest =>
      match asDictConfigs rest with
      | .ok l => .ok ((f, m) :: l)
      | .error e => .error e
  | (f, _) :: _ => .error (.attributeError f)

/-- `merge_hierarchical_configs(base_dir, target_path)` from
`config_merger.py` lines 171-194: discover, short-circuit with the
no-files diagnostic on an empty discovery, parse, then merge by depth. -/
def merge_hierarchical_configs (fs : FS) (base_dir target_path : List String) :
    Except PyErr (CfgMap × List String) :=
  match find_yaml_files_in_hierarchy fs base_dir target_path with
  | .error e => .error e
  | .ok yaml_files =>
      if yaml_files = [] then .ok ([], [noFilesMsg base_dir target_path])
      else
        match parse_yaml_configs fs yaml_files with
        | .error e => .error e
        | .ok configs =>
            match asDictConfigs configs with
            | .error e => .error e
            | .ok dconfigs => .ok (merge_configs_by_depth dconfigs)

/-- The files of a group that define top-level key `k`, in traversal
order. -/
def filesWithKey (k : String) (group : List (List String × CfgMap)) :
    List (List String) :=
  (group.filter (fun e => containsKey e.2 k)).map Prod.fst

/-- A heap cell: Python objects with references (`Nat` addresses) inside
dicts and lists. -/
inductive PyObj where
  | pdict : List (String × Nat) → PyObj
  | plist : List Nat → PyObj
  | pnull : PyObj
  | pbool : Bool → PyObj
  | pint : Int → PyObj
  | pstr : String → PyObj

/-- The heap: cell at address `a` is the `a`-th entry; allocation
appends. -/
abbrev Heap := List PyObj

/-- The addresses a cell refers to. -/
def refsOf : PyObj → List Nat
  | .pdict items => items.map Prod.snd
  | .plist rs => rs
  | _ => []

/-- The cell at an address (a dummy `None` outside the heap). -/
def heapAt (h : Heap) (a : Nat) : PyObj := (h[a]?).getD PyObj.pnull

/-- Every reference stored in the heap points at an allocated cell. -/
def closedHeap (h : Heap) : Prop :=
  ∀ a, a < h.length → ∀ r ∈ refsOf (heapAt h a), r < h.length

/-- One iteration of the `for key, value in override.items()` loop of
`_deep_merge`, acting on the heap: re-read the result dict, and either
recurse (when `key in result` and both sides are dicts) then store the
returned reference, or store the override's reference. -/
def mergeKeyH (recur : Heap → Nat → Nat → Option (Heap × Nat))
    (hh : Heap) (rref : Nat) (k : String) (vref : Nat) : Option Heap :=
  match hh[rref]? with
  | some (.pdict ritems) =>
      match lookupKey ritems k with
      | some bv =>
          match hh[bv]?, hh[vref]? with
          | some (.pdict _), some (.pdict _) =>
              match recur hh bv vref with
              | some (h', mref) =>
                  match h'[rref]? with
                  | some (.pdict ritems') =>
                      some (h'.set rref (.pdict (setKey ritems' k mref)))
                  | _ => none
              | none => none
          | _, _ => some (hh.set rref (.pdict (setKey ritems k vref)))
      | none => some (hh.set rref (.pdict (setKey ritems k vref)))
  | _ => none

/-- The override loop of `_deep_merge`, file order preserved. -/
def mergeLoopH (recur : Heap → Nat → Nat → Option (Heap × Nat)) (rref : Nat) :
    Heap → List (String × Nat) → Option Heap
  | hh, [] => some hh
  | hh, (k, vref) :: rest =>
      match mergeKeyH recur hh rref k vref with
      | some h' => mergeLoopH recur rref h' rest
      | none => none

/-- `_deep_merge(base, override)` over the heap: check both inputs are
dicts, allocate the shallow copy `result = base.copy()` at a fresh
address, run the loop, and return the fresh reference.  Fuel bounds the
recursion depth (YAML values are trees, so enough fuel always exists). -/
def deepMergeH : Nat → Heap → Nat → Nat → Option (Heap × Nat)
  | 0, _, _, _ => none
  | fuel + 1, h, bref, oref =>
      match h[bref]?, h[oref]? with
      | some (.pdict bitems), some (.pdict oitems) =>
          match mergeLoopH (deepMergeH fuel) h.length (h ++ [PyObj.pdict bitems]) oitems with
          | some h2 => some (h2, h.length)
          | none => none
      | _, _ => none

/-- Read every entry of a dict through a reader for its value
references. -/
def optMapPairs (f : Nat → Option Value) :
    List (String × Nat) → Option (List (String × Value))
  | [] => some []
  | (k, r) :: rest =>
      match f r with
      | some v =>
          match optMapPairs f rest with
          | some vs => some ((k, v) :: vs)
          | none => none
      | none => none

/-- Read every element of a list through a reader. -/
def optMapRefs (f : Nat → Option Value) : List Nat → Option (List Value)
  | [] => some []
  | r :: rest =>
      match f r with
      | some v =>
          match optMapRefs f rest with
          | some vs => some (v :: vs)
          | none => none
      | none => none

/-- Read the structured value reachable from an address (fuel-bounded). -/
def readVal : Nat → Heap → Nat → Option Value
  | 0, _, _ => none
  | fuel + 1, h, a =>
      match h[a]? with
      | some (.pdict items) => (optMapPairs (readVal fuel h) items).map Value.vmap
      | some (.plist rs) => (optMapRefs (readVal fuel h) rs).map Value.vlist
      | some .pnull => some .vnull
      | some (.pbool b) => some (.vbool b)
      | some (.pint n) => some (.vint n)
      | some (.pstr s) => some (.vstr s)
      | none => none

lemma deepMerge_nil (base : List (String × Value)) : deepMerge base [] = base := by
  simp [deepMerge]

lemma deepMerge_cons (base : List (String × Value)) (k : String) (v : Value)
    (rest : List (String × Value)) :
    deepMerge base ((k, v) :: rest) =
      deepMerge (setKey base k (mergedVal (lookupKey base k) v)) rest := by
  rw [deepMerge]
  by_cases hc :
      (containsKey base k && isMap ((lookupKey base k).getD .vnull) && isMap v) = true
  · rw [dif_pos hc]
    simp only [Bool.and_eq_true] at hc
    obtain ⟨⟨h1, h2⟩, h3⟩ := hc
    cases hlk : lookupKey base k with
    | none => simp [containsKey, hlk] at h1
    | some w =>
        rw [hlk] at h2
        cases w <;> simp [isMap] at h2
        cases v <;> simp [isMap] at h3
        simp [mergedVal, dval, hlk]
  · rw [dif_neg hc]
    have : mergedVal (lookupKey base k) v = v := by
      cases hlk : lookupKey base k with
      | none => cases v <;> simp [mergedVal]
      | some w =>
          cases w <;> cases v <;>
            simp_all [mergedVal, containsKey, isMap, hlk, Option.getD]
    rw [this]

lemma lookupKey_setKey_self {α β : Type} [DecidableEq α] (m : List (α × β)) (k : α) (v : β) :
    lookupKey (setKey m k v) k = some v := by
  induction m with
  | nil => simp [setKey, lookupKey]
  | cons hd tl ih =>
      obtain ⟨k0, v0⟩ := hd
      by_cases h : k0 = k
      · simp [setKey, h, lookupKey]
      · simp [setKey, h, lookupKey, ih]

lemma lookupKey_setKey_ne {α β : Type} [DecidableEq α] (m : List (α × β)) (k k' : α) (v : β)
    (h : k' ≠ k) : lookupKey (setKey m k v) k' = lookupKey m k' := by
  induction m with
  | nil =>
      simp only [setKey, lookupKey]
      rw [if_neg (fun hh => h hh.symm)]
  | cons hd tl ih =>
      obtain ⟨k0, v0⟩ := hd
      by_cases h0 : k0 = k
      · subst h0
        simp only [setKey, if_pos rfl, lookupKey]
        rw [if_neg (fun hh => h hh.symm), if_neg (fun hh => h hh.symm)]
      · simp only [setKey, if_neg h0, lookupKey]
        by_cases h1 : k0 = k'
        · rw [if_pos h1, if_pos h1]
        · rw [if_neg h1, if_neg h1, ih]

lemma lookupKey_eq_none {α β : Type} [DecidableEq α] (m : List (α × β)) (k : α)
    (h : k ∉ m.map Prod.fst) : lookupKey m k = none := by
  induction m with
  | nil => rfl
  | cons hd tl ih =>
      obtain ⟨k0, v0⟩ := hd
      simp only [List.map, List.mem_cons] at h
      push_neg at h
      simp only [lookupKey]
      rw [if_neg (fun hh => h.1 hh.symm), ih h.2]

lemma setKey_eq_of_lookup {α β : Type} [DecidableEq α] (m : List (α × β)) (k : α) (v : β)
    (h : lookupKey m k = some v) : setKey m k v = m := by
  induction m with
  | nil => simp [lookupKey] at h
  | cons hd tl ih =>
      obtain ⟨k0, v0⟩ := hd
      by_cases h0 : k0 = k
      · subst h0
        simp [lookupKey] at h
        simp [setKey, h]
      · simp [lookupKey, h0] at h
        simp [setKey, h0, ih h]

lemma wfMap_nil : wfMap [] = true := by
  simp [wfMap, wfVal]

lemma wfMap_cons (k : String) (v : Value) (rest : List (String × Value)) :
    wfMap ((k, v) :: rest) = (!(containsKey rest k) && wfVal v && wfMap rest) := by
  simp [wfMap]
  rw [wfVal]

/-- Pointwise characterization of one level of `_deep_merge`: the merged
dict's entry at `k` is the override's entry merged over the base's entry.
Requires the override's keys to be distinct, as they are for a Python
dict. -/
lemma lookupKey_deepMerge (b : List (String × Value)) :
    ∀ (a : List (String × Value)) (k : String), (b.map Prod.fst).Nodup →
      lookupKey (deepMerge a b) k = mergeLookup (lookupKey a k) (lookupKey b k) := by
  induction b with
  | nil => intro a k _; simp [deepMerge_nil, mergeLookup, lookupKey]
  | cons hd rest ih =>
      intro a k hnd
      obtain ⟨k0, v0⟩ := hd
      simp only [List.map, List.nodup_cons] at hnd
      rw [deepMerge_cons, ih _ _ hnd.2]
      by_cases hk : k = k0
      · subst hk
        rw [lookupKey_eq_none rest k hnd.1, lookupKey_setKey_self]
        simp [lookupKey, mergeLookup]
      · rw [lookupKey_setKey_ne _ _ _ _ hk]
        simp only [lookupKey]
        rw [if_neg (fun hh => hk hh.symm)]

lemma lookupKey_isSome_of_mem {α β : Type} [DecidableEq α] (m : List (α × β)) (k : α)
    (h : k ∈ m.map Prod.fst) : (lookupKey m k).isSome = true := by
  induction m with
  | nil => simp at h
  | cons hd tl ih =>
      obtain ⟨k0, v0⟩ := hd
      by_cases h0 : k0 = k
      · simp [lookupKey, h0]
      · simp only [List.map, List.mem_cons] at h
        rcases h with h | h
        · exact absurd h.symm h0
        · simp [lookupKey, h0, ih h]

lemma wfMap_nodup (m : List (String × Value)) (h : wfMap m = true) :
    (m.map Prod.fst).Nodup := by
  induction m with
  | nil => simp
  | cons hd tl ih =>
      obtain ⟨k0, v0⟩ := hd
      rw [wfMap_cons] at h
      simp only [Bool.and_eq_true, Bool.not_eq_true'] at h
      obtain ⟨⟨hc, _⟩, htl⟩ := h
      simp only [List.map, List.nodup_cons]
      refine ⟨fun hmem => ?_, ih htl⟩
      have := lookupKey_isSome_of_mem tl k0 hmem
      rw [containsKey, this] at hc
      cases hc

lemma wfMap_lookup (m : List (String × Value)) (k : String) (w : Value)
    (hwf : wfMap m = true) (h : lookupKey m k = some w) : wfVal w = true := by
  induction m with
  | nil => simp [lookupKey] at h
  | cons hd tl ih =>
      obtain ⟨k0, v0⟩ := hd
      rw [wfMap_cons] at hwf
      simp only [Bool.and_eq_true] at hwf
      by_cases h0 : k0 = k
      · rw [lookupKey, if_pos h0] at h
        cases h
        exact hwf.1.2
      · rw [lookupKey, if_neg h0] at h
        exact ih hwf.2 h

lemma mergedVal_none (v : Value) : mergedVal none v = v := by
  cases v <;> rfl

lemma mergedVal_some_not_map (u v : Value) (h : isMap u = false) :
    mergedVal (some u) v = v := by
  cases u with
  | vmap m => simp [isMap] at h
  | vnull => cases v <;> rfl
  | vbool b => cases v <;> rfl
  | vint n => cases v <;> rfl
  | vstr s => cases v <;> rfl
  | vlist l => cases v <;> rfl

lemma mergedVal_not_map_right (x : Option Value) (v : Value) (h : isMap v = false) :
    mergedVal x v = v := by
  cases x with
  | none => exact mergedVal_none v
  | some u =>
      cases u with
      | vmap m => cases v <;> first | rfl | simp [isMap] at h
      | vnull => exact mergedVal_some_not_map _ _ rfl
      | vbool b => exact mergedVal_some_not_map _ _ rfl
      | vint n => exact mergedVal_some_not_map _ _ rfl
      | vstr s => exact mergedVal_some_not_map _ _ rfl
      | vlist l => exact mergedVal_some_not_map _ _ rfl

lemma getPath_not_map (w : Value) (k : String) (ks : List String) (h : isMap w = false) :
    getPath w (k :: ks) = none := by
  cases w <;> first | rfl | simp [isMap] at h

lemma getPath_vmap_some (m : List (String × Value)) (k : String) (ks : List String) (w : Value)
    (h : lookupKey m k = some w) : getPath (.vmap m) (k :: ks) = getPath w ks := by
  have hh : getPath (.vmap m) (k :: ks) =
      (match lookupKey m k with | some w => getPath w ks | none => none) := rfl
  rw [hh, h]

lemma getPath_vmap_none (m : List (String × Value)) (k : String) (ks : List String)
    (h : lookupKey m k = none) : getPath (.vmap m) (k :: ks) = none := by
  have hh : getPath (.vmap m) (k :: ks) =
      (match lookupKey m k with | some w => getPath w ks | none => none) := rfl
  rw [hh, h]

/-- Pathwise characterization of `_deep_merge`: wherever the override
defines a value `v` at path `p`, the merged result at `p` is `v` merged
over whatever the base holds at `p` (a recursive merge when both are
mappings, `v` outright otherwise). -/
lemma getPath_deepMerge :
    ∀ (p : List String) (a b : List (String × Value)) (v : Value),
      wfMap b = true → getPath (.vmap b) p = some v →
      getPath (.vmap (deepMerge a b)) p = some (mergedVal (getPath (.vmap a) p) v) := by
  intro p
  induction p with
  | nil =>
      intro a b v _ hv
      simp only [getPath, Option.some.injEq] at hv
      subst hv
      rfl
  | cons k ks ih =>
      intro a b v hwf hv
      cases hw : lookupKey b k with
      | none => rw [getPath_vmap_none _ _ _ hw] at hv; cases hv
      | some w =>
          rw [getPath_vmap_some _ _ _ _ hw] at hv
          have hnd : (b.map Prod.fst).Nodup := wfMap_nodup b hwf
          have hlhs : lookupKey (deepMerge a b) k = some (mergedVal (lookupKey a k) w) := by
            rw [lookupKey_deepMerge b a k hnd, hw]
            rfl
          rw [getPath_vmap_some _ _ _ _ hlhs]
          by_cases hwm : isMap w = true
          · -- the override holds a mapping at this key
            cases w with
            | vmap mb =>
                cases ha : lookupKey a k with
                | none =>
                    rw [mergedVal_none, getPath_vmap_none _ _ _ ha, mergedVal_none, hv]
                | some u =>
                    by_cases hum : isMap u = true
                    · cases u with
                      | vmap ma =>
                          have hwfb : wfMap mb = true := wfMap_lookup b k _ hwf hw
                          rw [show mergedVal (some (Value.vmap ma)) (Value.vmap mb) =
                                Value.vmap (deepMerge ma mb) from rfl,
                              getPath_vmap_some _ _ _ _ ha]
                          exact ih ma mb v hwfb hv
                      | vnull => simp [isMap] at hum
                      | vbool bb => simp [isMap] at hum
                      | vint n => simp [isMap] at hum
                      | vstr s => simp [isMap] at hum
                      | vlist l => simp [isMap] at hum
                    · have hum' : isMap u = false := by
                        cases hh : isMap u
                        · rfl
                        · exact absurd hh hum
                      rw [mergedVal_some_not_map u (Value.vmap mb) hum']
                      cases ks with
                      | nil =>
                          rw [getPath_vmap_some a k [] u ha]
                          simp only [getPath, Option.some.injEq] at hv ⊢
                          rw [← hv, mergedVal_some_not_map u (Value.vmap mb) hum']
                      | cons k' ks' =>
                          rw [hv, getPath_vmap_some a k (k' :: ks') u ha,
                              getPath_not_map u k' ks' hum', mergedVal_none]
            | vnull => simp [isMap] at hwm
            | vbool bb => simp [isMap] at hwm
            | vint n => simp [isMap] at hwm
            | vstr s => simp [isMap] at hwm
            | vlist l => simp [isMap] at hwm
          · -- the override holds a non-mapping at this key: replaced wholesale
            have hwm' : isMap w = false := by
              cases hh : isMap w
              · rfl
              · exact absurd hh hwm
            rw [mergedVal_not_map_right _ _ hwm']
            cases ks with
            | nil =>
                simp only [getPath, Option.some.injEq] at hv ⊢
                rw [← hv, mergedVal_not_map_right _ _ hwm']
            | cons k' ks' =>
                rw [getPath_not_map _ _ _ hwm'] at hv
                cases hv

lemma containsKey_false_lookup {α β : Type} [DecidableEq α] (m : List (α × β)) (k : α)
    (h : containsKey m k = false) : lookupKey m k = none := by
  rw [containsKey] at h
  cases hlk : lookupKey m k
  · rfl
  · rw [hlk] at h; cases h

lemma setKey_append_of_none {α β : Type} [DecidableEq α] (m : List (α × β)) (k : α) (v : β)
    (h : lookupKey m k = none) : setKey m k v = m ++ [(k, v)] := by
  induction m with
  | nil => rfl
  | cons hd tl ih =>
      obtain ⟨k0, v0⟩ := hd
      rw [lookupKey] at h
      by_cases h0 : k0 = k
      · rw [if_pos h0] at h; cases h
      · rw [if_neg h0] at h
        rw [setKey, if_neg h0, ih h]
        rfl

lemma lookupKey_append {α β : Type} [DecidableEq α] (a c : List (α × β)) (k : α) :
    lookupKey (a ++ c) k =
      (match lookupKey a k with
       | some v => some v
       | none => lookupKey c k) := by
  induction a with
  | nil => rfl
  | cons hd tl ih =>
      obtain ⟨k0, v0⟩ := hd
      by_cases h0 : k0 = k
      · simp [lookupKey, h0]
      · simp only [List.cons_append, lookupKey, if_neg h0]
        exact ih

lemma deepMerge_append_disjoint :
    ∀ (m a : List (String × Value)), (m.map Prod.fst).Nodup →
      (∀ x ∈ m.map Prod.fst, lookupKey a x = none) → deepMerge a m = a ++ m := by
  intro m
  induction m with
  | nil => intro a _ _; rw [deepMerge_nil, List.append_nil]
  | cons hd rest ih =>
      intro a hnd hnone
      obtain ⟨k, v⟩ := hd
      simp only [List.map, List.nodup_cons] at hnd
      have hak : lookupKey a k = none := hnone k (by simp)
      rw [deepMerge_cons, hak, mergedVal_none, setKey_append_of_none a k v hak]
      rw [ih (a ++ [(k, v)]) hnd.2 ?_]
      · simp
      · intro x hx
        rw [lookupKey_append, hnone x (by simp [hx])]
        have hxk : ¬(k = x) := fun hh => hnd.1 (hh ▸ hx)
        simp [lookupKey, hxk]

lemma deepMerge_nil_left (m : List (String × Value)) (h : (m.map Prod.fst).Nodup) :
    deepMerge [] m = m := by
  rw [deepMerge_append_disjoint m [] h (by intro x _; rfl)]
  rfl

lemma deepMerge_idem_aux :
    ∀ (N : Nat) (b : List (String × Value)), sizeOf b ≤ N → wfMap b = true →
      ∀ a, deepMerge (deepMerge a b) b = deepMerge a b := by
  intro N
  induction N with
  | zero =>
      intro b hb
      exfalso
      have : 0 < sizeOf b := by cases b <;> simp_arith
      omega
  | succ N ihN =>
      intro b hb hwf a
      cases b with
      | nil => rw [deepMerge_nil, deepMerge_nil]
      | cons hd rest =>
          obtain ⟨k, v⟩ := hd
          rw [wfMap_cons] at hwf
          simp only [Bool.and_eq_true, Bool.not_eq_true'] at hwf
          obtain ⟨⟨hck, hwv⟩, hwrest⟩ := hwf
          have hrest_sz : sizeOf rest ≤ N := by
            simp only [List.cons.sizeOf_spec, Prod.mk.sizeOf_spec] at hb
            have : 0 < sizeOf v := by cases v <;> simp_arith
            omega
          have hrest_k : lookupKey rest k = none := containsKey_false_lookup rest k hck
          rw [deepMerge_cons a k v rest]
          rw [deepMerge_cons (deepMerge (setKey a k (mergedVal (lookupKey a k) v)) rest) k v rest]
          have hDk : lookupKey (deepMerge (setKey a k (mergedVal (lookupKey a k) v)) rest) k =
              some (mergedVal (lookupKey a k) v) := by
            rw [lookupKey_deepMerge rest _ k (wfMap_nodup rest hwrest), hrest_k]
            simp only [mergeLookup]
            exact lookupKey_setKey_self a k _
          rw [hDk]
          have hfix : mergedVal (some (mergedVal (lookupKey a k) v)) v =
              mergedVal (lookupKey a k) v := by
            by_cases hvm : isMap v = true
            · cases v with
              | vmap mb =>
                  have hwmb : wfMap mb = true := hwv
                  have hmb_sz : sizeOf mb ≤ N := by
                    simp only [List.cons.sizeOf_spec, Prod.mk.sizeOf_spec,
                      Value.vmap.sizeOf_spec] at hb
                    omega
                  cases ha : lookupKey a k with
                  | none =>
                      rw [mergedVal_none]
                      show Value.vmap (deepMerge mb mb) = Value.vmap mb
                      have h0 : deepMerge [] mb = mb :=
                        deepMerge_nil_left mb (wfMap_nodup mb hwmb)
                      rw [show deepMerge mb mb = deepMerge (deepMerge [] mb) mb by rw [h0],
                          ihN mb hmb_sz hwmb [], h0]
                  | some u =>
                      by_cases hum : isMap u = true
                      · cases u with
                        | vmap ma =>
                            show Value.vmap (deepMerge (deepMerge ma mb) mb) =
                              Value.vmap (deepMerge ma mb)
                            rw [ihN mb hmb_sz hwmb ma]
                        | vnull => simp [isMap] at hum
                        | vbool bb => simp [isMap] at hum
                        | vint n => simp [isMap] at hum
                        | vstr s => simp [isMap] at hum
                        | vlist l => simp [isMap] at hum
                      · have hum' : isMap u = false := by
                          cases hh : isMap u
                          · rfl
                          · exact absurd hh hum
                        rw [mergedVal_some_not_map u (Value.vmap mb) hum']
                        show Value.vmap (deepMerge mb mb) = Value.vmap mb
                        have h0 : deepMerge [] mb = mb :=
                          deepMerge_nil_left mb (wfMap_nodup mb hwmb)
                        rw [show deepMerge mb mb = deepMerge (deepMerge [] mb) mb by rw [h0],
                            ihN mb hmb_sz hwmb [], h0]
              | vnull => simp [isMap] at hvm
              | vbool bb => simp [isMap] at hvm
              | vint n => simp [isMap] at hvm
              | vstr s => simp [isMap] at hvm
              | vlist l => simp [isMap] at hvm
            · have hvm' : isMap v = false := by
                cases hh : isMap v
                · rfl
                · exact absurd hh hvm
              rw [mergedVal_not_map_right _ _ hvm', mergedVal_not_map_right _ _ hvm']
          rw [hfix, setKey_eq_of_lookup _ _ _ (hfix ▸ hDk)]
          exact ihN rest hrest_sz hwrest (setKey a k (mergedVal (lookupKey a k) v))

/-- Claim C2: for all structured values `A` (base) and `B` (override),
`_deep_merge(A, B)` equals `B` at every path where `B` defines a
non-mapping value or where `A` lacks that path; where both hold mapping
values the result is their recursive merge; and on any type mismatch `B`'s
value replaces `A`'s wholesale (so sequences are replaced atomically),
with no error raised (the function is total).  `B` is a Python dict, so
its keys are distinct (`wfMap`). -/
theorem deep_merge_pathwise (a b : CfgMap) (p : List String) (hwf : wfMap b = true) :
    (∀ v, getPath (.vmap b) p = some v → isMap v = false →
        getPath (.vmap (deepMerge a b)) p = some v)
    ∧ (∀ v, getPath (.vmap b) p = some v → getPath (.vmap a) p = none →
        getPath (.vmap (deepMerge a b)) p = some v)
    ∧ (∀ ma mb, getPath (.vmap a) p = some (.vmap ma) →
        getPath (.vmap b) p = some (.vmap mb) →
        getPath (.vmap (deepMerge a b)) p = some (.vmap (deepMerge ma mb)))
    ∧ (∀ w v, getPath (.vmap a) p = some w → getPath (.vmap b) p = some v →
        ¬(isMap w = true ∧ isMap v = true) →
        getPath (.vmap (deepMerge a b)) p = some v) := by
  refine ⟨?_, ?_, ?_, ?_⟩
  · intro v hb hv
    rw [getPath_deepMerge p a b v hwf hb, mergedVal_not_map_right _ _ hv]
  · intro v hb ha
    rw [getPath_deepMerge p a b v hwf hb, ha, mergedVal_none]
  · intro ma mb ha hb
    rw [getPath_deepMerge p a b _ hwf hb, ha]
    rfl
  · intro w v ha hb hmm
    rw [getPath_deepMerge p a b v hwf hb, ha]
    by_cases hv : isMap v = true
    · have hw : isMap w = false := by
        cases hh : isMap w
        · rfl
        · exact absurd ⟨hh, hv⟩ hmm
      rw [mergedVal_some_not_map w v hw]
    · have hv' : isMap v = false := by
        cases hh : isMap v
        · rfl
        · exact absurd hh hv
      rw [mergedVal_not_map_right _ _ hv']

/-- Witness for C2 at a concrete input: the override's scalar at key `a`
wins, evaluated on explicit data. -/
theorem deep_merge_pathwise_witness :
    wfMap [("a", Value.vint 2)] = true ∧
    getPath (.vmap (deepMerge [("a", Value.vint 1), ("b", Value.vint 5)]
        [("a", Value.vint 2)])) ["a"] = some (Value.vint 2) :=
  ⟨by simp [wfMap, wfVal, containsKey, lookupKey],
   (deep_merge_pathwise [("a", Value.vint 1), ("b", Value.vint 5)] [("a", Value.vint 2)] ["a"]
      (by simp [wfMap, wfVal, containsKey, lookupKey])).1 (Value.vint 2) rfl rfl⟩

/-- Claim C8: applying the same override twice is idempotent:
`_deep_merge(_deep_merge(A, B), B) = _deep_merge(A, B)` (the override `B`
is a Python dict, so its keys are distinct at every level). -/
theorem deep_merge_idempotent (a b : CfgMap) (h : wfMap b = true) :
    deepMerge (deepMerge a b) b = deepMerge a b :=
  deepMerge_idem_aux (sizeOf b) b le_rfl h a

/-- Witness for C8 at a concrete input (a nested-mapping override over a
scalar base). -/
theorem deep_merge_idempotent_witness :
    wfMap [("x", Value.vmap [("y", Value.vint 2)])] = true ∧
    deepMerge (deepMerge [("x", Value.vint 1)] [("x", Value.vmap [("y", Value.vint 2)])])
        [("x", Value.vmap [("y", Value.vint 2)])]
      = deepMerge [("x", Value.vint 1)] [("x", Value.vmap [("y", Value.vint 2)])] :=
  ⟨by simp [wfMap, wfVal, containsKey, lookupKey],
   deep_merge_idempotent [("x", Value.vint 1)] [("x", Value.vmap [("y", Value.vint 2)])]
     (by simp [wfMap, wfVal, containsKey, lookupKey])⟩

lemma pathCharsAux_append (a c : List String) :
    pathCharsAux (a ++ c) = pathCharsAux a ++ pathCharsAux c := by
  induction a with
  | nil => rfl
  | cons s rest ih => simp [pathCharsAux, ih]

lemma pathChars_of_descendant (base target : List String) (h : base <+: target) :
    (pathChars base).isPrefixOf (pathChars target) = true := by
  rw [List.isPrefixOf_iff_prefix]
  obtain ⟨rest, rfl⟩ := h
  cases base with
  | nil =>
      cases rest with
      | nil => exact ⟨[], rfl⟩
      | cons s rs => exact ⟨s.toList ++ pathCharsAux rs, rfl⟩
  | cons s bs =>
      cases rest with
      | nil => simp [pathChars]
      | cons r rs =>
          refine ⟨pathCharsAux (r :: rs), ?_⟩
          show pathCharsAux (s :: bs) ++ pathCharsAux (r :: rs) =
            pathCharsAux ((s :: bs) ++ (r :: rs))
          rw [pathCharsAux_append]

lemma dirIncluded_iff (l t : List String) : dirIncluded l t ↔ l <+: t := by
  rw [dirIncluded]
  constructor
  · rintro (rfl | ⟨hle, heq⟩)
    · exact List.nil_prefix
    · rw [heq]
      exact List.take_prefix _ _
  · intro hp
    exact Or.inr ⟨hp.length_le, List.prefix_iff_eq_take.mp hp⟩

/-- Claim C1, counterexample: with base `/aaa` and target `/aaab/x`, the
explicit `startswith` guard passes (string prefix), so the raise that
fires is `relative_to`'s `ValueError`, not the invalid-target one at
line 41. -/
theorem find_yaml_string_guard_counterexample :
    find_yaml_files_in_hierarchy [] ["aaa"] ["aaab", "x"]
        = .error .relativeToValueError ∧
    find_yaml_files_in_hierarchy [] ["aaa"] ["aaab", "x"]
        ≠ .error .invalidTarget := by
  refine ⟨rfl, fun h => ?_⟩
  rw [show find_yaml_files_in_hierarchy [] ["aaa"] ["aaab", "x"]
      = Except.error PyErr.relativeToValueError from rfl] at h
  simp at h

/-- Claim C1 (amended): when the target shares a string prefix with the
base (so the explicit `startswith` descendant check — a string-prefix
comparison — spuriously passes) but is not a component-wise descendant,
`find_yaml_files_in_hierarchy` still fails, via the `ValueError` that
`Path.relative_to` raises, not via the explicit invalid-target raise. -/
theorem find_yaml_rejects_non_descendant (fs : FS) (base target : List String)
    (hpre : (pathChars base).isPrefixOf (pathChars target) = true)
    (hnot : ¬ base <+: target) :
    find_yaml_files_in_hierarchy fs base target = .error .relativeToValueError := by
  rw [find_yaml_files_in_hierarchy, if_pos hpre, relative_to,
    if_neg (fun hh => hnot (List.isPrefixOf_iff_prefix.mp hh))]

/-- Witness for the amended C1 at base `/aaa`, target `/aaab/x`. -/
theorem find_yaml_rejects_non_descendant_witness :
    ((pathChars ["aaa"]).isPrefixOf (pathChars ["aaab", "x"]) = true) ∧
    ¬ (["aaa"] <+: ["aaab", "x"]) ∧
    find_yaml_files_in_hierarchy [] ["aaa"] ["aaab", "x"]
      = .error .relativeToValueError :=
  ⟨by decide, by decide,
   find_yaml_rejects_non_descendant [] ["aaa"] ["aaab", "x"] (by decide) (by decide)⟩

/-- Claim C3: for a valid base/target pair (target a component-wise
descendant of base), discovery succeeds and returns exactly the
`.yaml`/`.yml` files lying immediately in directories of the subtree of
`base` whose relative component sequence is a component-wise prefix of
the target's (the base itself included); no file of a diverging sibling
branch appears. -/
theorem find_yaml_scope (fs : FS) (base target : List String) (h : base <+: target) :
    ∃ L, find_yaml_files_in_hierarchy fs base target = .ok L ∧
      ∀ p, p ∈ L ↔ ∃ e ∈ fs, base <+: e.1 ∧
          (e.1.drop base.length) <+: (target.drop base.length) ∧
          ∃ fc ∈ e.2, isYamlName fc.1 = true ∧ p = e.1 ++ [fc.1] := by
  rw [find_yaml_files_in_hierarchy, if_pos (pathChars_of_descendant base target h),
    relative_to, if_pos (List.isPrefixOf_iff_prefix.mpr h)]
  refine ⟨_, rfl, fun p => ?_⟩
  rw [List.mem_flatMap]
  constructor
  · rintro ⟨e, hewalk, hpe⟩
    rw [walkDirs, List.mem_filter] at hewalk
    obtain ⟨hefs, hbe⟩ := hewalk
    by_cases hc : dirIncluded (e.1.drop base.length) (target.drop base.length)
    · rw [if_pos hc] at hpe
      rw [List.mem_map] at hpe
      obtain ⟨fc, hfc, rfl⟩ := hpe
      rw [List.mem_filter] at hfc
      exact ⟨e, hefs, List.isPrefixOf_iff_prefix.mp hbe,
        (dirIncluded_iff _ _).mp hc, fc, hfc.1, hfc.2, rfl⟩
    · rw [if_neg hc] at hpe
      cases hpe
  · rintro ⟨e, hefs, hbe, hinc, fc, hfc, hy, rfl⟩
    refine ⟨e, ?_, ?_⟩
    · rw [walkDirs, List.mem_filter]
      exact ⟨hefs, List.isPrefixOf_iff_prefix.mpr hbe⟩
    · rw [if_pos ((dirIncluded_iff _ _).mpr hinc), List.mem_map]
      exact ⟨fc, List.mem_filter.mpr ⟨hfc, hy⟩, rfl⟩

/-- Witness for C3: a concrete filesystem with the base, the target's
ancestor chain and a diverging sibling; the sibling's file is excluded,
the base's file included. -/
theorem find_yaml_scope_witness :
    (["r"] : List String) <+: ["r", "a", "b"] ∧
    (∃ L, find_yaml_files_in_hierarchy
        [(["r"], [("c.yaml", Content.doc Value.vnull)]),
         (["r", "a"], [("d.yml", Content.doc Value.vnull)]),
         (["r", "x"], [("e.yaml", Content.doc Value.vnull)])]
        ["r"] ["r", "a", "b"] = .ok L ∧
      ["r", "c.yaml"] ∈ L ∧ ["r", "a", "d.yml"] ∈ L ∧ ["r", "x", "e.yaml"] ∉ L) := by
  obtain ⟨L, hok, hmem⟩ := find_yaml_scope
    [(["r"], [("c.yaml", Content.doc Value.vnull)]),
     (["r", "a"], [("d.yml", Content.doc Value.vnull)]),
     (["r", "x"], [("e.yaml", Content.doc Value.vnull)])]
    ["r"] ["r", "a", "b"] (by decide)
  have h2 : find_yaml_files_in_hierarchy
      [(["r"], [("c.yaml", Content.doc Value.vnull)]),
       (["r", "a"], [("d.yml", Content.doc Value.vnull)]),
       (["r", "x"], [("e.yaml", Content.doc Value.vnull)])]
      ["r"] ["r", "a", "b"]
      = .ok [["r", "c.yaml"], ["r", "a", "d.yml"]] := rfl
  rw [h2] at hok
  have hL : L = [["r", "c.yaml"], ["r", "a", "d.yml"]] := (Except.ok.inj hok).symm
  subst hL
  exact ⟨by decide, _, h2, by decide, by decide, by decide⟩

/-- Claim C6: when the discovered files contain an unparsable one,
`parse_yaml_configs` fails with an error naming the first such file (so no
partial mapping is returned), and `merge_hierarchical_configs` propagates
that failure, producing no merged result. -/
theorem parse_aborts_on_first_bad (fs : FS) (files : List (List String)) (f : List String)
    (hfind : files.find? (fun g => isBadFile fs g) = some f) :
    parse_yaml_configs fs files = .error (.parseError f) ∧
    (∀ base target, find_yaml_files_in_hierarchy fs base target = .ok files →
      merge_hierarchical_configs fs base target = .error (.parseError f)) := by
  have hparse : parse_yaml_configs fs files = .error (.parseError f) := by
    induction files with
    | nil => simp [List.find?] at hfind
    | cons g rest ih =>
        cases hbad : isBadFile fs g with
        | true =>
            rw [List.find?_cons_of_pos _ hbad] at hfind
            injection hfind with h1
            subst h1
            cases hrf : readFile fs g with
            | none => simp only [parse_yaml_configs, hrf]
            | some c =>
                cases c with
                | unparsable => simp only [parse_yaml_configs, hrf]
                | doc v => simp [isBadFile, hrf] at hbad
        | false =>
            rw [List.find?_cons_of_neg _ (by simp [hbad])] at hfind
            have hrest := ih hfind
            cases hrf : readFile fs g with
            | none => simp [isBadFile, hrf] at hbad
            | some c =>
                cases c with
                | unparsable => simp [isBadFile, hrf] at hbad
                | doc v => simp only [parse_yaml_configs, hrf, hrest]
  refine ⟨hparse, fun base target hok => ?_⟩
  have hne : ¬(files = []) := by
    intro h0
    subst h0
    simp [List.find?] at hfind
  simp only [merge_hierarchical_configs, hok]
  rw [if_neg hne]
  simp only [hparse]

/-- Witness for C6: a directory holding an unparsable file before a good
one; both the parse failure and its propagation are exercised. -/
theorem parse_aborts_on_first_bad_witness :
    ([["d", "bad.yaml"], ["d", "good.yaml"]].find?
        (fun g => isBadFile [(["d"],
          [("bad.yaml", Content.unparsable),
           ("good.yaml", Content.doc (Value.vmap []))])] g)
        = some ["d", "bad.yaml"]) ∧
    parse_yaml_configs
        [(["d"], [("bad.yaml", Content.unparsable),
                  ("good.yaml", Content.doc (Value.vmap []))])]
        [["d", "bad.yaml"], ["d", "good.yaml"]]
      = .error (.parseError ["d", "bad.yaml"]) ∧
    merge_hierarchical_configs
        [(["d"], [("bad.yaml", Content.unparsable),
                  ("good.yaml", Content.doc (Value.vmap []))])]
        ["d"] ["d"]
      = .error (.parseError ["d", "bad.yaml"]) := by
  have h := parse_aborts_on_first_bad
    [(["d"], [("bad.yaml", Content.unparsable),
              ("good.yaml", Content.doc (Value.vmap []))])]
    [["d", "bad.yaml"], ["d", "good.yaml"]] ["d", "bad.yaml"] (by decide)
  exact ⟨by decide, h.1, h.2 ["d"] ["d"] rfl⟩

/-- Claim C7: when discovery returns zero files,
`merge_hierarchical_configs` returns the empty mapping together with
exactly one diagnostic, whose text is
`No YAML files found in hierarchy from {base} to {target}`, raising no
error. -/
theorem merge_empty_discovery (fs : FS) (base target : List String)
    (h : find_yaml_files_in_hierarchy fs base target = .ok []) :
    merge_hierarchical_configs fs base target = .ok ([], [noFilesMsg base target]) ∧
    noFilesMsg base target =
      "No YAML files found in hierarchy from " ++ pathString base ++ " to " ++
        pathString target := by
  refine ⟨?_, rfl⟩
  simp only [merge_hierarchical_configs, h]
  rfl

/-- Witness for C7: a base directory with no `.yaml`/`.yml` file in
scope. -/
theorem merge_empty_discovery_witness :
    find_yaml_files_in_hierarchy [(["a"], [("x.txt", Content.doc Value.vnull)])]
        ["a"] ["a"] = .ok [] ∧
    merge_hierarchical_configs [(["a"], [("x.txt", Content.doc Value.vnull)])]
        ["a"] ["a"] = .ok ([], [noFilesMsg ["a"] ["a"]]) :=
  ⟨rfl,
   (merge_empty_discovery [(["a"], [("x.txt", Content.doc Value.vnull)])] ["a"] ["a"] rfl).1⟩

/-- Claim C10: a file whose YAML document parses to any falsy value
(null, false, 0, the empty string, the empty sequence or the empty
mapping) is recorded by `parse_yaml_configs` as the empty mapping, not as
the parsed value — the `or {}` coercion applies to every falsy document,
not only to empty ones. -/
theorem parse_falsy_records_empty (fs : FS) :
    ∀ (files : List (List String)) (f : List String) (v : Value)
      (m : List (List String × Value)),
      readFile fs f = some (.doc v) → truthy v = false → f ∈ files →
      parse_yaml_configs fs files = .ok m →
      lookupKey m f = some (Value.vmap []) := by
  intro files
  induction files with
  | nil =>
      intro f v m _ _ hmem
      cases hmem
  | cons g rest ih =>
      intro f v m hrd htr hmem hok
      cases hrf : readFile fs g with
      | none =>
          simp only [parse_yaml_configs, hrf] at hok
          cases hok
      | some c =>
          cases c with
          | unparsable =>
              simp only [parse_yaml_configs, hrf] at hok
              cases hok
          | doc w =>
              simp only [parse_yaml_configs, hrf] at hok
              cases hpr : parse_yaml_configs fs rest with
              | error e => rw [hpr] at hok; cases hok
              | ok m' =>
                  rw [hpr] at hok
                  injection hok with hm
                  by_cases hgf : g = f
                  · subst hgf
                    rw [hrd] at hrf
                    injection hrf with hc
                    injection hc with hw
                    subst hw
                    rw [← hm, lookupKey, if_pos rfl, htr]
                    simp
                  · have hfrest : f ∈ rest := by
                      cases hmem with
                      | head => exact absurd rfl hgf
                      | tail _ hh => exact hh
                    rw [← hm, lookupKey, if_neg hgf]
                    exact ih f v m' hrd htr hfrest hpr

/-- Witness for C10: a document parsing to the falsy integer `0` (not an
empty document) is recorded as the empty mapping. -/
theorem parse_falsy_records_empty_witness :
    readFile [(["d"], [("z.yaml", Content.doc (Value.vint 0))])] ["d", "z.yaml"]
        = some (.doc (Value.vint 0)) ∧
    truthy (Value.vint 0) = false ∧
    lookupKey [(["d", "z.yaml"], Value.vmap ([] : List (String × Value)))] ["d", "z.yaml"]
        = some (Value.vmap []) :=
  ⟨rfl, rfl,
   parse_falsy_records_empty [(["d"], [("z.yaml", Content.doc (Value.vint 0))])]
     [["d", "z.yaml"]] ["d", "z.yaml"] (Value.vint 0)
     [(["d", "z.yaml"], Value.vmap [])] rfl rfl (List.mem_singleton.mpr rfl) rfl⟩

lemma mem_map_fst_of_containsKey {α β : Type} [DecidableEq α] (m : List (α × β)) (k : α)
    (h : containsKey m k = true) : k ∈ m.map Prod.fst := by
  induction m with
  | nil => simp [containsKey, lookupKey] at h
  | cons hd tl ih =>
      obtain ⟨k0, v0⟩ := hd
      by_cases h0 : k0 = k
      · subst h0
        simp
      · rw [containsKey, lookupKey, if_neg h0] at h
        simp only [List.map, List.mem_cons]
        exact Or.inr (ih h)

lemma containsKey_iff_mem_map_fst {α β : Type} [DecidableEq α] (m : List (α × β)) (k : α) :
    containsKey m k = true ↔ k ∈ m.map Prod.fst := by
  refine ⟨mem_map_fst_of_containsKey m k, fun h => ?_⟩
  rw [containsKey, lookupKey_isSome_of_mem m k h]

lemma scanKeys_filter_key (d : Nat) (fp : List String) (k : String) :
    ∀ (keys : List String) (sources : List (String × List String)), keys.Nodup →
      ((scanKeys d fp sources keys).2.filter (fun x => x.key == k)) =
        (if k ∈ keys then
          (match lookupKey sources k with
           | some f1 => [Diag.mk d k f1 fp]
           | none => [])
         else []) := by
  intro keys
  induction keys with
  | nil =>
      intro sources _
      simp [scanKeys]
  | cons key rest ih =>
      intro sources hnd
      rw [List.nodup_cons] at hnd
      obtain ⟨hkr, hndr⟩ := hnd
      cases hs : lookupKey sources key with
      | some first =>
          simp only [scanKeys, hs, List.filter_cons]
          by_cases hkk : k = key
          · subst hkk
            rw [if_pos (by simp), ih sources hndr, if_neg hkr, if_pos (by simp), hs]
          · have hne : ¬((key == k) = true) := by
              rw [beq_iff_eq]
              exact fun hh => hkk hh.symm
            rw [if_neg hne, ih sources hndr]
            by_cases hmem : k ∈ rest
            · rw [if_pos hmem, if_pos (by simp [hmem])]
            · rw [if_neg hmem, if_neg (by simp [hmem, hkk])]
      | none =>
          simp only [scanKeys, hs]
          by_cases hkk : k = key
          · subst hkk
            rw [ih _ hndr, if_neg hkr, if_pos (by simp), hs]
          · rw [ih _ hndr, lookupKey_setKey_ne sources key k fp hkk]
            by_cases hmem : k ∈ rest
            · rw [if_pos hmem, if_pos (by simp [hmem])]
            · rw [if_neg hmem, if_neg (by simp [hmem, hkk])]

lemma scanKeys_sources (d : Nat) (fp : List String) (k : String) :
    ∀ (keys : List String) (sources : List (String × List String)),
      lookupKey (scanKeys d fp sources keys).1 k =
        (if k ∈ keys ∧ lookupKey sources k = none then some fp
         else lookupKey sources k) := by
  intro keys
  induction keys with
  | nil =>
      intro sources
      simp [scanKeys]
  | cons key rest ih =>
      intro sources
      cases hs : lookupKey sources key with
      | some first =>
          simp only [scanKeys, hs]
          rw [ih sources]
          by_cases hkk : k = key
          · subst hkk
            rw [if_neg (by simp [hs]), if_neg (by simp [hs])]
          · by_cases hmem : k ∈ rest
            · simp [hmem, hkk]
            · simp [hmem, hkk]
      | none =>
          simp only [scanKeys, hs]
          rw [ih _]
          by_cases hkk : k = key
          · subst hkk
            rw [lookupKey_setKey_self]
            simp [hs]
          · rw [lookupKey_setKey_ne sources key k fp hkk]
            by_cases hmem : k ∈ rest
            · simp [hmem, hkk]
            · simp [hmem, hkk]

lemma scanFiles_filter_key (d : Nat) (k : String) :
    ∀ (group : List (List String × CfgMap)) (sources : List (String × List String)),
      (∀ e ∈ group, (e.2.map Prod.fst).Nodup) →
      ((scanFiles d sources group).filter (fun x => x.key == k)) =
        (match lookupKey sources k with
         | some f1 => (filesWithKey k group).map (fun f => Diag.mk d k f1 f)
         | none =>
             match filesWithKey k group with
             | [] => []
             | f1 :: rest => rest.map (fun f => Diag.mk d k f1 f)) := by
  intro group
  induction group with
  | nil =>
      intro sources _
      cases hs : lookupKey sources k <;> simp [scanFiles, filesWithKey]
  | cons hd rest' ih =>
      intro sources hwf
      obtain ⟨fp, cfg⟩ := hd
      have hwfc : (cfg.map Prod.fst).Nodup := hwf (fp, cfg) (List.mem_cons_self _ _)
      have hwfr : ∀ e ∈ rest', (e.2.map Prod.fst).Nodup :=
        fun e he => hwf e (by simp [he])
      have hkeys : containsKey cfg k = true ↔ k ∈ cfg.map Prod.fst :=
        containsKey_iff_mem_map_fst cfg k
      simp only [scanFiles, List.filter_append]
      rw [scanKeys_filter_key d fp k (cfg.map Prod.fst) sources hwfc,
        ih _ hwfr, scanKeys_sources d fp k (cfg.map Prod.fst) sources]
      by_cases hck : containsKey cfg k = true
      · have hmem : k ∈ cfg.map Prod.fst := hkeys.mp hck
        have hfw : filesWithKey k ((fp, cfg) :: rest') = fp :: filesWithKey k rest' := by
          simp [filesWithKey, List.filter_cons, hck]
        rw [if_pos hmem]
        cases hs : lookupKey sources k with
        | some f1 => simp [hfw]
        | none => simp [hfw, hmem]
      · have hmem : ¬ k ∈ cfg.map Prod.fst := fun hh => hck (hkeys.mpr hh)
        have hfw : filesWithKey k ((fp, cfg) :: rest') = filesWithKey k rest' := by
          have hck' : containsKey cfg k = false := by
            cases hcc : containsKey cfg k
            · rfl
            · exact absurd hcc hck
          simp [filesWithKey, List.filter_cons, hck']
        rw [if_neg hmem, hfw]
        cases hs : lookupKey sources k with
        | some f1 => simp [hmem]
        | none => simp [hmem]

lemma scanKeys_depth (d : Nat) (fp : List String) :
    ∀ (keys : List String) (sources : List (String × List String)) (x : Diag),
      x ∈ (scanKeys d fp sources keys).2 → x.depth = d := by
  intro keys
  induction keys with
  | nil =>
      intro sources x hx
      simp [scanKeys] at hx
  | cons key rest ih =>
      intro sources x hx
      cases hs : lookupKey sources key with
      | some first =>
          simp only [scanKeys, hs, List.mem_cons] at hx
          rcases hx with rfl | hx
          · rfl
          · exact ih sources x hx
      | none =>
          simp only [scanKeys, hs] at hx
          exact ih _ x hx

lemma scanFiles_depth (d : Nat) :
    ∀ (group : List (List String × CfgMap)) (sources : List (String × List String)) (x : Diag),
      x ∈ scanFiles d sources group → x.depth = d := by
  intro group
  induction group with
  | nil =>
      intro sources x hx
      simp [scanFiles] at hx
  | cons hd rest' ih =>
      intro sources x hx
      obtain ⟨fp, cfg⟩ := hd
      simp only [scanFiles, List.mem_append] at hx
      rcases hx with hx | hx
      · exact scanKeys_depth d fp _ sources x hx
      · exact ih _ x hx

lemma mergeConfigs_foldl_snd (configs : List (List String × CfgMap)) :
    ∀ (ds : List Nat) (acc : CfgMap × List Diag),
      (ds.foldl (fun acc d =>
          ((groupAt d configs).foldl (fun mc e => deepMerge mc e.2) acc.1,
            acc.2 ++ scanGroup d (groupAt d configs))) acc).2
        = acc.2 ++ ds.flatMap (fun d => scanGroup d (groupAt d configs)) := by
  intro ds
  induction ds with
  | nil => intro acc; simp
  | cons d0 rest ih =>
      intro acc
      rw [List.foldl_cons, ih, List.flatMap_cons, List.append_assoc]

lemma mergeConfigsByDepth_snd (configs : List (List String × CfgMap))
    (hne : configs ≠ []) :
    (mergeConfigsByDepth configs).2 =
      (sortedDepths configs).flatMap (fun d => scanGroup d (groupAt d configs)) := by
  rw [mergeConfigsByDepth, if_neg (by simp [hne]), mergeConfigs_foldl_snd]
  rfl

lemma filter_flatMap_eq_nil {α β : Type} (P : β → Bool) (F : α → List β) :
    ∀ l : List α, (∀ b ∈ l, (F b).filter P = []) → (l.flatMap F).filter P = [] := by
  intro l
  induction l with
  | nil => intro _; rfl
  | cons hd tl ih =>
      intro h
      rw [List.flatMap_cons, List.filter_append, h hd (List.mem_cons_self _ _),
        ih (fun b hb => h b (List.mem_cons_of_mem _ hb))]
      rfl

lemma filter_flatMap_single {α β : Type} (P : β → Bool) (F : α → List β) :
    ∀ (l : List α) (a : α), l.Nodup → a ∈ l →
      (∀ b ∈ l, b ≠ a → (F b).filter P = []) →
      (l.flatMap F).filter P = (F a).filter P := by
  intro l
  induction l with
  | nil =>
      intro a _ ha
      cases ha
  | cons hd tl ih =>
      intro a hnd ha hothers
      rw [List.nodup_cons] at hnd
      rw [List.flatMap_cons, List.filter_append]
      by_cases hda : hd = a
      · subst hda
        rw [filter_flatMap_eq_nil P F tl
          (fun b hb => hothers b (List.mem_cons_of_mem _ hb)
            (fun hba => hnd.1 (hba ▸ hb))), List.append_nil]
      · have hatl : a ∈ tl := by
          cases ha with
          | head => exact absurd rfl hda
          | tail _ hh => exact hh
        rw [hothers hd (List.mem_cons_self _ _) hda,
          ih a hnd.2 hatl (fun b hb hba => hothers b (List.mem_cons_of_mem _ hb) hba)]
        rfl

lemma sortedDepths_nodup (configs : List (List String × CfgMap)) :
    (sortedDepths configs).Nodup := by
  rw [sortedDepths]
  exact (List.perm_insertionSort _ _).nodup_iff.mpr (List.nodup_dedup _)

lemma mem_sortedDepths (configs : List (List String × CfgMap)) (d : Nat)
    (h : ∃ e ∈ configs, depthOf e.1 = d) : d ∈ sortedDepths configs := by
  rw [sortedDepths, (List.perm_insertionSort _ _).mem_iff, List.mem_dedup]
  obtain ⟨e, he, hd⟩ := h
  exact List.mem_map.mpr ⟨e, he, hd⟩

/-- Claim C4: in a depth group where exactly three files define the same
top-level key `k` (in traversal order `f1`, `f2`, `f3`), the fold emits
exactly two collision diagnostics for `k` in that group, and both blame
the first-seen file `f1` as the existing source — the recorded source is
never updated after its first registration.  The rendered error strings
of `merge_configs_by_depth` are exactly these diagnostics through the
line-137 template. -/
theorem collision_three_files (configs : List (List String × CfgMap)) (d : Nat) (k : String)
    (f1 f2 f3 : List String)
    (hwfk : ∀ e ∈ configs, (e.2.map Prod.fst).Nodup)
    (hthree : filesWithKey k (groupAt d configs) = [f1, f2, f3]) :
    ((mergeConfigsByDepth configs).2.filter (fun x => x.depth == d && x.key == k))
      = [Diag.mk d k f1 f2, Diag.mk d k f1 f3] ∧
    (merge_configs_by_depth configs).2 = (mergeConfigsByDepth configs).2.map renderDiag := by
  refine ⟨?_, rfl⟩
  have hgne : groupAt d configs ≠ [] := by
    intro h0
    rw [h0] at hthree
    simp [filesWithKey] at hthree
  obtain ⟨e0, he0g⟩ : ∃ e, e ∈ groupAt d configs := by
    cases hg : groupAt d configs with
    | nil => exact absurd hg hgne
    | cons x xs => exact ⟨x, List.mem_cons_self _ _⟩
  have he0c := List.mem_filter.mp he0g
  have hcne : configs ≠ [] := by
    intro h0
    rw [h0] at he0c
    cases he0c.1
  have hd_mem : d ∈ sortedDepths configs :=
    mem_sortedDepths configs d ⟨e0, he0c.1, by simpa using he0c.2⟩
  rw [mergeConfigsByDepth_snd configs hcne]
  rw [filter_flatMap_single _ _ (sortedDepths configs) d (sortedDepths_nodup configs)
    hd_mem ?hothers]
  case hothers =>
    intro d' _ hne
    rw [List.filter_eq_nil_iff]
    intro x hx
    have hxd := scanFiles_depth d' _ [] x hx
    simp [hxd, hne]
  have hdepth : ∀ x ∈ scanGroup d (groupAt d configs), x.depth = d :=
    fun x hx => scanFiles_depth d _ [] x hx
  have hcongr : (scanGroup d (groupAt d configs)).filter
        (fun y => y.depth == d && y.key == k)
      = (scanGroup d (groupAt d configs)).filter (fun y => y.key == k) := by
    apply List.filter_congr
    intro x hx
    show (x.depth == d && x.key == k) = (x.key == k)
    rw [hdepth x hx]
    simp
  rw [hcongr]
  rw [scanGroup, scanFiles_filter_key d k (groupAt d configs) []
    (fun e he => hwfk e (List.mem_filter.mp he).1)]
  simp only [lookupKey, hthree, List.map]

/-- Witness for C4: three same-depth single-key files colliding on
`"k"`. -/
theorem collision_three_files_witness :
    (∀ e ∈ [((["a", "f1"] : List String), [("k", Value.vnull)]),
            (["a", "f2"], [("k", Value.vnull)]),
            (["a", "f3"], [("k", Value.vnull)])],
        (e.2.map Prod.fst).Nodup) ∧
    filesWithKey "k" (groupAt 3
        [(["a", "f1"], [("k", Value.vnull)]),
         (["a", "f2"], [("k", Value.vnull)]),
         (["a", "f3"], [("k", Value.vnull)])])
      = [["a", "f1"], ["a", "f2"], ["a", "f3"]] ∧
    ((mergeConfigsByDepth
        [(["a", "f1"], [("k", Value.vnull)]),
         (["a", "f2"], [("k", Value.vnull)]),
         (["a", "f3"], [("k", Value.vnull)])]).2.filter
      (fun x => x.depth == 3 && x.key == "k"))
      = [Diag.mk 3 "k" ["a", "f1"] ["a", "f2"], Diag.mk 3 "k" ["a", "f1"] ["a", "f3"]] := by
  have h := collision_three_files
    [(["a", "f1"], [("k", Value.vnull)]),
     (["a", "f2"], [("k", Value.vnull)]),
     (["a", "f3"], [("k", Value.vnull)])]
    3 "k" ["a", "f1"] ["a", "f2"] ["a", "f3"]
    (by
      intro e he
      simp only [List.mem_cons, List.not_mem_nil, or_false] at he
      rcases he with rfl | rfl | rfl <;> simp)
    (by decide)
  exact ⟨by
      intro e he
      simp only [List.mem_cons, List.not_mem_nil, or_false] at he
      rcases he with rfl | rfl | rfl <;> simp,
    by decide, h.1⟩

/-- Claim C5: depth groups are folded in ascending depth order and files
within a group in traversal order, so with two files at depth `n` and one
at a greater depth `m`, all defining key `k` (scalar values), the merged
result maps `k` to the deepest file's value `v3`, and exactly one
collision diagnostic is emitted, referencing the depth-`n` pair (blaming
`p1`, with last-seen `v2` winning inside group `n` before `v3` overrides
it). -/
theorem merge_depth_order_scenario
    (p1 p2 p3 : List String) (k : String) (v1 v2 v3 : Value) (n m : Nat)
    (h1 : depthOf p1 = n) (h2 : depthOf p2 = n) (h3 : depthOf p3 = m)
    (hnm : n < m) (hv2 : isMap v2 = false) (hv3 : isMap v3 = false) :
    mergeConfigsByDepth [(p1, [(k, v1)]), (p2, [(k, v2)]), (p3, [(k, v3)])]
      = ([(k, v3)], [Diag.mk n k p1 p2]) ∧
    (merge_configs_by_depth [(p1, [(k, v1)]), (p2, [(k, v2)]), (p3, [(k, v3)])]).2
      = [renderDiag (Diag.mk n k p1 p2)] := by
  have hmn : ¬ (m = n) := by omega
  have hnm' : ¬ (n = m) := by omega
  have hle : n ≤ m := Nat.le_of_lt hnm
  have hsd : sortedDepths [(p1, [(k, v1)]), (p2, [(k, v2)]), (p3, [(k, v3)])]
      = [n, m] := by
    rw [sortedDepths]
    simp only [List.map_cons, List.map_nil, h1, h2, h3]
    rw [List.dedup_cons_of_mem (by simp),
      List.dedup_cons_of_not_mem (by simp [hnm']),
      List.dedup_cons_of_not_mem (by simp), List.dedup_nil]
    simp [List.insertionSort, List.orderedInsert, hle]
  have hg1 : groupAt n [(p1, [(k, v1)]), (p2, [(k, v2)]), (p3, [(k, v3)])]
      = [(p1, [(k, v1)]), (p2, [(k, v2)])] := by
    simp [groupAt, List.filter, h1, h2, h3, hmn]
  have hg2 : groupAt m [(p1, [(k, v1)]), (p2, [(k, v2)]), (p3, [(k, v3)])]
      = [(p3, [(k, v3)])] := by
    simp [groupAt, List.filter, h1, h2, h3, hnm']
  have hm1 : deepMerge [] [(k, v1)] = [(k, v1)] := by
    rw [deepMerge_cons, deepMerge_nil]
    simp [lookupKey, setKey, mergedVal_none]
  have hm2 : deepMerge [(k, v1)] [(k, v2)] = [(k, v2)] := by
    rw [deepMerge_cons, deepMerge_nil,
      show lookupKey [(k, v1)] k = some v1 from by simp [lookupKey],
      mergedVal_not_map_right _ _ hv2]
    simp [setKey]
  have hm3 : deepMerge [(k, v2)] [(k, v3)] = [(k, v3)] := by
    rw [deepMerge_cons, deepMerge_nil,
      show lookupKey [(k, v2)] k = some v2 from by simp [lookupKey],
      mergedVal_not_map_right _ _ hv3]
    simp [setKey]
  have hs1 : scanGroup n [(p1, [(k, v1)]), (p2, [(k, v2)])] = [Diag.mk n k p1 p2] := by
    simp [scanGroup, scanFiles, scanKeys, lookupKey, setKey]
  have hs2 : scanGroup m [(p3, [(k, v3)])] = [] := by
    simp [scanGroup, scanFiles, scanKeys, lookupKey]
  have hmain : mergeConfigsByDepth [(p1, [(k, v1)]), (p2, [(k, v2)]), (p3, [(k, v3)])]
      = ([(k, v3)], [Diag.mk n k p1 p2]) := by
    rw [mergeConfigsByDepth, if_neg (by simp), hsd]
    simp only [List.foldl_cons, List.foldl_nil]
    rw [hg1, hg2]
    simp only [List.foldl_cons, List.foldl_nil]
    rw [hs1, hs2]
    rw [hm1, hm2, hm3]
    simp
  refine ⟨hmain, ?_⟩
  show ((mergeConfigsByDepth
      [(p1, [(k, v1)]), (p2, [(k, v2)]), (p3, [(k, v3)])]).2).map renderDiag = _
  rw [hmain]
  rfl

/-- Witness for C5: concrete paths and scalar values at depths 2 and 3. -/
theorem merge_depth_order_scenario_witness :
    depthOf ["f1"] = 2 ∧ depthOf ["f2"] = 2 ∧ depthOf ["s", "f3"] = 3 ∧
    isMap (Value.vint 2) = false ∧ isMap (Value.vint 3) = false ∧
    mergeConfigsByDepth
        [(["f1"], [("key", Value.vint 1)]),
         (["f2"], [("key", Value.vint 2)]),
         (["s", "f3"], [("key", Value.vint 3)])]
      = ([("key", Value.vint 3)], [Diag.mk 2 "key" ["f1"] ["f2"]]) :=
  ⟨rfl, rfl, rfl, rfl, rfl,
   (merge_depth_order_scenario ["f1"] ["f2"] ["s", "f3"] "key"
      (Value.vint 1) (Value.vint 2) (Value.vint 3) 2 3
      rfl rfl rfl (by omega) rfl rfl).1⟩

lemma optMapPairs_congr (f g : Nat → Option Value) :
    ∀ l : List (String × Nat), (∀ kv ∈ l, f kv.2 = g kv.2) →
      optMapPairs f l = optMapPairs g l := by
  intro l
  induction l with
  | nil => intro _; rfl
  | cons kv rest ih =>
      intro hfg
      obtain ⟨k, r⟩ := kv
      have h1 : f r = g r := hfg (k, r) (List.mem_cons_self _ _)
      simp only [optMapPairs, h1, ih (fun kv hkv => hfg kv (List.mem_cons_of_mem _ hkv))]

lemma optMapRefs_congr (f g : Nat → Option Value) :
    ∀ l : List Nat, (∀ r ∈ l, f r = g r) → optMapRefs f l = optMapRefs g l := by
  intro l
  induction l with
  | nil => intro _; rfl
  | cons r rest ih =>
      intro hfg
      simp only [optMapRefs, hfg r (List.mem_cons_self _ _),
        ih (fun x hx => hfg x (List.mem_cons_of_mem _ hx))]

lemma heapSet_preserves (hh : Heap) (rref : Nat) (o : PyObj) :
    (∀ a, a < hh.length → a ≠ rref → (hh.set rref o)[a]? = hh[a]?) ∧
      hh.length ≤ (hh.set rref o).length :=
  ⟨fun a _ hne => List.getElem?_set_ne (Ne.symm hne), by rw [List.length_set]⟩

lemma mergeKeyH_preserves (recur : Heap → Nat → Nat → Option (Heap × Nat))
    (hrec : ∀ h b o out, recur h b o = some out →
      (∀ a, a < h.length → out.1[a]? = h[a]?) ∧ h.length ≤ out.1.length)
    (hh : Heap) (rref : Nat) (k : String) (vref : Nat) (h2 : Heap)
    (hm : mergeKeyH recur hh rref k vref = some h2) :
    (∀ a, a < hh.length → a ≠ rref → h2[a]? = hh[a]?) ∧ hh.length ≤ h2.length := by
  rw [mergeKeyH] at hm
  split at hm
  · -- the result object is a dict
    split at hm
    · -- `key in result`
      split at hm
      · -- both `result[key]` and `value` are dicts: recursive call
        split at hm
        · -- the recursive call succeeded
          rename_i h' mref hre
          obtain ⟨hpre, hlen⟩ := hrec hh _ vref (h', mref) hre
          split at hm
          · simp only [Option.some.injEq] at hm
            subst hm
            refine ⟨fun a ha hne => ?_, ?_⟩
            · rw [List.getElem?_set_ne (Ne.symm hne)]
              exact hpre a ha
            · rw [List.length_set]
              exact hlen
          · cases hm
        · cases hm
      · -- a non-dict on either side: plain overwrite
        simp only [Option.some.injEq] at hm
        subst hm
        exact heapSet_preserves hh rref _
    · -- fresh key: plain overwrite
      simp only [Option.some.injEq] at hm
      subst hm
      exact heapSet_preserves hh rref _
  · cases hm

lemma mergeLoopH_preserves (recur : Heap → Nat → Nat → Option (Heap × Nat))
    (hrec : ∀ h b o out, recur h b o = some out →
      (∀ a, a < h.length → out.1[a]? = h[a]?) ∧ h.length ≤ out.1.length)
    (rref : Nat) :
    ∀ (items : List (String × Nat)) (hh h2 : Heap),
      mergeLoopH recur rref hh items = some h2 →
      (∀ a, a < hh.length → a ≠ rref → h2[a]? = hh[a]?) ∧ hh.length ≤ h2.length := by
  intro items
  induction items with
  | nil =>
      intro hh h2 hm
      rw [mergeLoopH] at hm
      simp only [Option.some.injEq] at hm
      subst hm
      exact ⟨fun a _ _ => rfl, le_rfl⟩
  | cons kv rest ih =>
      intro hh h2 hm
      obtain ⟨k, vref⟩ := kv
      rw [mergeLoopH] at hm
      split at hm
      · rename_i h' hk
        obtain ⟨hp1, hl1⟩ := mergeKeyH_preserves recur hrec hh rref k vref h' hk
        obtain ⟨hp2, hl2⟩ := ih h' h2 hm
        refine ⟨fun a ha hne => ?_, le_trans hl1 hl2⟩
        rw [hp2 a (lt_of_lt_of_le ha hl1) hne, hp1 a ha hne]
      · cases hm

lemma deepMergeH_preserves :
    ∀ (fuel : Nat) (h : Heap) (b o : Nat) (out : Heap × Nat),
      deepMergeH fuel h b o = some out →
      (∀ a, a < h.length → out.1[a]? = h[a]?) ∧ h.length ≤ out.1.length ∧
        out.2 = h.length := by
  intro fuel
  induction fuel with
  | zero =>
      intro h b o out hm
      rw [deepMergeH] at hm
      cases hm
  | succ fuel ih =>
      intro h b o out hm
      have hrec : ∀ h' b' o' out', deepMergeH fuel h' b' o' = some out' →
          (∀ a, a < h'.length → out'.1[a]? = h'[a]?) ∧ h'.length ≤ out'.1.length :=
        fun h' b' o' out' hmm => ⟨(ih h' b' o' out' hmm).1, (ih h' b' o' out' hmm).2.1⟩
      rw [deepMergeH] at hm
      split at hm
      · rename_i bitems oitems hbref horef
        split at hm
        · rename_i h2 hloop
          simp only [Option.some.injEq] at hm
          subst hm
          obtain ⟨hpres, hlen⟩ :=
            mergeLoopH_preserves (deepMergeH fuel) hrec h.length oitems
              (h ++ [PyObj.pdict bitems]) h2 hloop
          refine ⟨fun a ha => ?_, ?_, rfl⟩
          · rw [hpres a (by simp; omega) (by omega),
              List.getElem?_append_left ha]
          · calc h.length ≤ (h ++ [PyObj.pdict bitems]).length := by simp
              _ ≤ h2.length := hlen
        · cases hm
      · cases hm

lemma readVal_congr (h h' : Heap) (hcl : closedHeap h)
    (hag : ∀ a, a < h.length → h'[a]? = h[a]?) :
    ∀ (f : Nat) (a : Nat), a < h.length → readVal f h' a = readVal f h a := by
  intro f
  induction f with
  | zero => intro a _; rfl
  | succ f ih =>
      intro a ha
      rw [readVal, readVal, hag a ha]
      cases ho : h[a]? with
      | none => rfl
      | some o =>
          cases o with
          | pdict items =>
              have hrefs : ∀ r ∈ refsOf (PyObj.pdict items), r < h.length := by
                have := hcl a ha
                rw [heapAt, ho] at this
                exact this
              show (optMapPairs (readVal f h') items).map Value.vmap
                = (optMapPairs (readVal f h) items).map Value.vmap
              rw [optMapPairs_congr _ _ items (fun kv hkv =>
                ih kv.2 (hrefs kv.2 (by
                  rw [refsOf]
                  exact List.mem_map.mpr ⟨kv, hkv, rfl⟩)))]
          | plist rs =>
              have hrefs : ∀ r ∈ refsOf (PyObj.plist rs), r < h.length := by
                have := hcl a ha
                rw [heapAt, ho] at this
                exact this
              show (optMapRefs (readVal f h') rs).map Value.vlist
                = (optMapRefs (readVal f h) rs).map Value.vlist
              rw [optMapRefs_congr _ _ rs (fun r hr =>
                ih r (hrefs r (by rw [refsOf]; exact hr)))]
          | pnull => rfl
          | pbool b => rfl
          | pint n => rfl
          | pstr s => rfl

/-- Claim C9: `_deep_merge` run over the heap returns a freshly allocated
result (`r` is the next free address of the input heap) and, from the
caller's perspective, leaves both inputs unchanged: every value readable
from `base` or `override` before the call reads identically after it,
even though only a shallow copy of `base` was made. -/
theorem deep_merge_no_mutation (fuel g : Nat) (h : Heap) (bref oref : Nat)
    (h' : Heap) (r : Nat) (hcl : closedHeap h) (hb : bref < h.length)
    (ho : oref < h.length) (hmerge : deepMergeH fuel h bref oref = some (h', r)) :
    readVal g h' bref = readVal g h bref ∧
    readVal g h' oref = readVal g h oref ∧
    r = h.length := by
  obtain ⟨hpre, _, hr⟩ := deepMergeH_preserves fuel h bref oref (h', r) hmerge
  exact ⟨readVal_congr h h' hcl hpre g bref hb,
    readVal_congr h h' hcl hpre g oref ho, hr⟩

/-- Witness for C9: a two-dict heap; after the merge both inputs read back
unchanged and the result lives at the fresh address 4. -/
theorem deep_merge_no_mutation_witness :
    closedHeap [PyObj.pdict [("a", 1)], PyObj.pint 5,
        PyObj.pdict [("b", 3)], PyObj.pint 7] ∧
    deepMergeH 3 [PyObj.pdict [("a", 1)], PyObj.pint 5,
        PyObj.pdict [("b", 3)], PyObj.pint 7] 0 2
      = some ([PyObj.pdict [("a", 1)], PyObj.pint 5,
          PyObj.pdict [("b", 3)], PyObj.pint 7,
          PyObj.pdict [("a", 1), ("b", 3)]], 4) ∧
    readVal 2 [PyObj.pdict [("a", 1)], PyObj.pint 5,
        PyObj.pdict [("b", 3)], PyObj.pint 7,
        PyObj.pdict [("a", 1), ("b", 3)]] 0
      = readVal 2 [PyObj.pdict [("a", 1)], PyObj.pint 5,
          PyObj.pdict [("b", 3)], PyObj.pint 7] 0 := by
  have hcl : closedHeap [PyObj.pdict [("a", 1)], PyObj.pint 5,
      PyObj.pdict [("b", 3)], PyObj.pint 7] := by
    unfold closedHeap
    decide
  have h := deep_merge_no_mutation 3 2
    [PyObj.pdict [("a", 1)], PyObj.pint 5, PyObj.pdict [("b", 3)], PyObj.pint 7]
    0 2
    [PyObj.pdict [("a", 1)], PyObj.pint 5, PyObj.pdict [("b", 3)], PyObj.pint 7,
      PyObj.pdict [("a", 1), ("b", 3)]]
    4 hcl (by decide) (by decide) rfl
  exact ⟨hcl, rfl, h.1⟩

end HierCfg

